import Mathlib

/-!
Verification development for `pip-select.py`, an interactive multi-select
upgrader for pip-installed packages that excludes conda-installed packages.

Strings are modelled as `List Char`.  Python's `str.lower` is modelled by
`Char.toLower` (ASCII lowering), `str.strip` by trimming the whitespace
characters recognised by `Char.isWhitespace`; both restrictions are faithful
on the ASCII package names and installer tags the program manipulates.
-/

namespace PipSelect

/-- Characters of a string literal, the `List Char` view used throughout. -/
def chars (s : String) : List Char := s.data

/-- The character class of `_NAME_NORM_RE = re.compile(r"[-_.]+")`. -/
def sepChar (c : Char) : Bool := c = '-' || c = '_' || c = '.'

/-- One pass of `re.sub("[-_.]+", "-", name)`: the flag records whether the
previous character belonged to the class, so that a maximal run of class
characters is replaced by a single `'-'`. -/
def subSepAux : Bool → List Char → List Char
  | _, [] => []
  | prev, c :: cs =>
    if sepChar c then
      if prev then subSepAux true cs
      else '-' :: subSepAux true cs
    else c :: subSepAux false cs

/-- `_NAME_NORM_RE.sub("-", name)`. -/
def subSep (s : List Char) : List Char := subSepAux false s

/-- Whitespace stripped by `str.strip()` (ASCII subset). -/
def isWS (c : Char) : Bool := c.isWhitespace

/-- Strip leading whitespace. -/
def trimLeft (s : List Char) : List Char := s.dropWhile isWS

/-- Strip trailing whitespace. -/
def trimRight : List Char → List Char
  | [] => []
  | c :: cs =>
    match trimRight cs with
    | [] => if isWS c then [] else [c]
    | r => c :: r

/-- `str.strip()`. -/
def trim (s : List Char) : List Char := trimRight (trimLeft s)

/-- `norm_name(name)`: `_NAME_NORM_RE.sub("-", name).lower().strip()`. -/
def normName (s : List Char) : List Char :=
  trim ((subSep s).map Char.toLower)

/-- One installed distribution as enumerated from the metadata registry:
`InstalledDist(name=..., version=..., installer=...)`. -/
structure InstalledDist where
  name : List Char
  version : List Char
  installer : List Char
deriving DecidableEq

/-- The installer tag `"conda"`. -/
def condaStr : List Char := chars "conda"

/-- Python `set.add`: insert a name unless already present. -/
def insertName (n : List Char) (s : List (List Char)) : List (List Char) :=
  if n ∈ s then s else n :: s

/-- `conda_meta_names`: each manifest file under `conda-meta/` is abstracted to
`some n` when reading and JSON-decoding it succeeds and its `"name"` field is
the string `n`, and to `none` when any step fails (the `except` branch skips
the file).  A name is added, normalized, only when it is nonempty after
stripping (`isinstance(n, str) and n.strip()`). -/
def condaMetaNames : List (Option (List Char)) → List (List Char)
  | [] => []
  | none :: ms => condaMetaNames ms
  | some n :: ms =>
    if trim n = [] then condaMetaNames ms
    else insertName (normName n) (condaMetaNames ms)

/-- The loop body of `pip_installed_set_excluding_conda` over the installed
distributions, carrying `(pip_names, excluded_conda)`.  The final two-way
branch of the source adds the name in both arms (unknown or third-party
installers are deliberately treated as pip-like). -/
def pipLoop (cp : Bool) (cn : List (List Char)) :
    List (List Char) × Nat → List InstalledDist → List (List Char) × Nat
  | acc, [] => acc
  | acc, d :: ds =>
    let n := normName d.name
    if d.installer = condaStr then
      pipLoop cp cn (acc.1, acc.2 + 1) ds
    else if cp && decide (n ∈ cn) then
      pipLoop cp cn (acc.1, acc.2 + 1) ds
    else if d.installer = chars "pip" ∨ d.installer = chars "pip3" ∨ d.installer = [] then
      pipLoop cp cn (insertName n acc.1, acc.2) ds
    else
      pipLoop cp cn (insertName n acc.1, acc.2) ds

/-- The set `conda_names = conda_meta_names(conda_prefix) if conda_prefix else set()`. -/
def condaNamesOf (condaRoot : Option (List Char)) (manifests : List (Option (List Char))) :
    List (List Char) :=
  if condaRoot.isSome then condaMetaNames manifests else []

/-- `pip_installed_set_excluding_conda()`, with the ambient environment made
explicit: `condaRoot` is the result of `detect_conda_prefix()` and `manifests`
the abstracted `conda-meta/*.json` files.  Returns
`(pip_names, len(pip_names), excluded_conda, conda_prefix)`. -/
def pip_installed_set_excluding_conda (condaRoot : Option (List Char))
    (manifests : List (Option (List Char))) (dists : List InstalledDist) :
    List (List Char) × Nat × Nat × Option (List Char) :=
  let cn := condaNamesOf condaRoot manifests
  let r := pipLoop condaRoot.isSome cn ([], 0) dists
  (r.1, r.1.length, r.2, condaRoot)

/-- The spec-side per-unit classification policy, for comparison with the
loop: a unit is eligible unless its provenance marker is the secondary
installer's identifier, or a secondary environment is present and its
normalized name appears in the secondary names set. -/
def distEligible (cp : Bool) (cn : List (List Char)) (d : InstalledDist) : Bool :=
  !(decide (d.installer = condaStr)) && !(cp && decide (normName d.name ∈ cn))

theorem mem_insertName {m n : List Char} {s : List (List Char)} :
    m ∈ insertName n s ↔ m = n ∨ m ∈ s := by
  unfold insertName
  split
  · constructor
    · exact fun h => Or.inr h
    · rintro (rfl | h)
      · assumption
      · exact h
  · exact List.mem_cons

theorem nodup_insertName {n : List Char} {s : List (List Char)} (h : s.Nodup) :
    (insertName n s).Nodup := by
  unfold insertName
  split
  · exact h
  · exact List.nodup_cons.mpr ⟨by assumption, h⟩

theorem distEligible_false_iff {cp : Bool} {cn : List (List Char)} {d : InstalledDist} :
    distEligible cp cn d = false ↔
      d.installer = condaStr ∨ (cp = true ∧ normName d.name ∈ cn) := by
  simp [distEligible, Bool.and_eq_false_iff, or_comm]
  tauto

theorem pipLoop_mem {cp : Bool} {cn : List (List Char)} (ds : List InstalledDist)
    (acc : List (List Char) × Nat) (n : List Char) :
    n ∈ (pipLoop cp cn acc ds).1 ↔
      n ∈ acc.1 ∨ ∃ d ∈ ds, distEligible cp cn d = true ∧ normName d.name = n := by
  induction ds generalizing acc with
  | nil => simp [pipLoop]
  | cons d ds ih =>
    show n ∈ (pipLoop cp cn _ _).1 ↔ _
    by_cases h1 : d.installer = condaStr
    · rw [pipLoop, if_pos h1, ih]
      have he : distEligible cp cn d = false := distEligible_false_iff.mpr (Or.inl h1)
      simp [he]
    · by_cases h2 : cp = true ∧ normName d.name ∈ cn
      · rw [pipLoop, if_neg h1]
        rw [if_pos (by simp [h2.1, h2.2])]
        have he : distEligible cp cn d = false := distEligible_false_iff.mpr (Or.inr h2)
        rw [ih]; simp [he]
      · have he : distEligible cp cn d = true := by
          cases hcd : distEligible cp cn d
          · exact absurd (distEligible_false_iff.mp hcd) (by tauto)
          · rfl
        have hc2 : ¬(cp && decide (normName d.name ∈ cn)) = true := by
          simp only [Bool.and_eq_true, decide_eq_true_eq]; exact h2
        rw [pipLoop, if_neg h1, if_neg hc2]
        split
        · rw [ih]
          simp only [Prod.fst, mem_insertName, he]
          constructor
          · rintro ((rfl | h) | h)
            · exact Or.inr ⟨d, by simp, he, rfl⟩
            · exact Or.inl h
            · rcases h with ⟨e, hm, hh⟩; exact Or.inr ⟨e, List.mem_cons_of_mem _ hm, hh⟩
          · rintro (h | ⟨e, hm, hel, rfl⟩)
            · exact Or.inl (Or.inr h)
            · rcases List.mem_cons.mp hm with rfl | hm
              · exact Or.inl (Or.inl rfl)
              · exact Or.inr ⟨e, hm, hel, rfl⟩
        · rw [ih]
          simp only [Prod.fst, mem_insertName, he]
          constructor
          · rintro ((rfl | h) | h)
            · exact Or.inr ⟨d, by simp, he, rfl⟩
            · exact Or.inl h
            · rcases h with ⟨e, hm, hh⟩; exact Or.inr ⟨e, List.mem_cons_of_mem _ hm, hh⟩
          · rintro (h | ⟨e, hm, hel, rfl⟩)
            · exact Or.inl (Or.inr h)
            · rcases List.mem_cons.mp hm with rfl | hm
              · exact Or.inl (Or.inl rfl)
              · exact Or.inr ⟨e, hm, hel, rfl⟩

theorem pipLoop_count {cp : Bool} {cn : List (List Char)} (ds : List InstalledDist)
    (acc : List (List Char) × Nat) :
    (pipLoop cp cn acc ds).2 =
      acc.2 + (ds.filter fun d => !(distEligible cp cn d)).length := by
  induction ds generalizing acc with
  | nil => simp [pipLoop]
  | cons d ds ih =>
    by_cases h1 : d.installer = condaStr
    · have he : distEligible cp cn d = false := distEligible_false_iff.mpr (Or.inl h1)
      rw [pipLoop, if_pos h1, ih]
      simp [he]; omega
    · by_cases h2 : cp = true ∧ normName d.name ∈ cn
      · have he : distEligible cp cn d = false := distEligible_false_iff.mpr (Or.inr h2)
        rw [pipLoop, if_neg h1, if_pos (by simp [h2.1, h2.2]), ih]
        simp [he]; omega
      · have he : distEligible cp cn d = true := by
          cases hcd : distEligible cp cn d
          · exact absurd (distEligible_false_iff.mp hcd) (by tauto)
          · rfl
        have hc2 : ¬(cp && decide (normName d.name ∈ cn)) = true := by
          simp only [Bool.and_eq_true, decide_eq_true_eq]; exact h2
        rw [pipLoop, if_neg h1, if_neg hc2]
        split <;> rw [ih] <;> simp [he]

theorem pipLoop_nodup {cp : Bool} {cn : List (List Char)} (ds : List InstalledDist)
    (acc : List (List Char) × Nat) (h : acc.1.Nodup) :
    (pipLoop cp cn acc ds).1.Nodup := by
  induction ds generalizing acc with
  | nil => simpa [pipLoop] using h
  | cons d ds ih =>
    rw [pipLoop]
    split
    · exact ih _ h
    · split
      · exact ih _ h
      · split
        · exact ih _ (nodup_insertName h)
        · exact ih _ (nodup_insertName h)

end PipSelect

namespace PipSelect

theorem char_eq_iff_toNat {a b : Char} : a = b ↔ a.toNat = b.toNat := by
  constructor
  · intro h; rw [h]
  · intro h
    apply Char.ext
    exact UInt32.ext h

theorem char_toNat_ofNat {n : Nat} (h : n.isValidChar) : (Char.ofNat n).toNat = n := by
  unfold Char.ofNat
  rw [dif_pos h]
  unfold Char.ofNatAux Char.toNat
  simp [UInt32.toNat]

theorem sepChar_iff {c : Char} : sepChar c = true ↔ c.toNat = 45 ∨ c.toNat = 95 ∨ c.toNat = 46 := by
  unfold sepChar
  simp only [Bool.or_eq_true, decide_eq_true_eq]
  rw [char_eq_iff_toNat, char_eq_iff_toNat, char_eq_iff_toNat]
  show (_ = ('-').toNat ∨ _) ∨ _ ↔ _
  tauto

theorem toLower_eq_self {c : Char} (h : ¬(c.toNat ≥ 65 ∧ c.toNat ≤ 90)) : c.toLower = c := by
  simp only [Char.toLower]
  rw [if_neg h]

theorem toLower_toNat_of_upper {c : Char} (h : c.toNat ≥ 65 ∧ c.toNat ≤ 90) :
    c.toLower.toNat = c.toNat + 32 := by
  simp only [Char.toLower]
  rw [if_pos h]
  exact char_toNat_ofNat (Or.inl (by omega))

theorem toLower_toLower (c : Char) : c.toLower.toLower = c.toLower := by
  by_cases h : c.toNat ≥ 65 ∧ c.toNat ≤ 90
  · have h2 := toLower_toNat_of_upper h
    exact toLower_eq_self (by omega)
  · rw [toLower_eq_self h, toLower_eq_self h]

theorem sepChar_toLower (c : Char) : sepChar c.toLower = sepChar c := by
  by_cases h : c.toNat ≥ 65 ∧ c.toNat ≤ 90
  · have h2 := toLower_toNat_of_upper h
    have e1 : sepChar c.toLower = false := by
      cases hs : sepChar c.toLower
      · rfl
      · exact absurd (sepChar_iff.mp hs) (by omega)
    have e2 : sepChar c = false := by
      cases hs : sepChar c
      · rfl
      · exact absurd (sepChar_iff.mp hs) (by omega)
    rw [e1, e2]
  · rw [toLower_eq_self h]

theorem sep_toLower_fix {c : Char} (h : sepChar c = true) : c.toLower = c :=
  toLower_eq_self (by rcases sepChar_iff.mp h with h2 | h2 | h2 <;> omega)

theorem ws_not_sep {c : Char} (h : isWS c = true) : sepChar c = false := by
  unfold isWS Char.isWhitespace at h
  simp only [Bool.or_eq_true, decide_eq_true_eq] at h
  rcases h with ((h | h) | h) | h <;> subst h <;> decide

end PipSelect

namespace PipSelect

/-- Scans a string left to right and checks that every character of the
separator class stands alone (not preceded by another separator, with the
flag carrying that context) and is already `'-'`: the shape `subSep` leaves
its output in. -/
def okAfter : Bool → List Char → Bool
  | _, [] => true
  | prev, c :: cs =>
    if sepChar c then !prev && (c = '-') && okAfter true cs
    else okAfter false cs

theorem subSepAux_of_okAfter : ∀ (l : List Char) (prev : Bool),
    okAfter prev l = true → subSepAux prev l = l := by
  intro l
  induction l with
  | nil => intro prev _; rfl
  | cons c cs ih =>
    intro prev h
    rw [okAfter] at h
    by_cases hs : sepChar c = true
    · rw [if_pos hs] at h
      simp only [Bool.and_eq_true, Bool.not_eq_true', decide_eq_true_eq] at h
      obtain ⟨⟨hprev, hc⟩, hok⟩ := h
      subst hprev
      rw [subSepAux, if_pos hs, ih true hok, hc]
      simp
    · rw [if_neg hs] at h
      rw [subSepAux, if_neg hs, ih false h]

theorem okAfter_subSepAux : ∀ (l : List Char) (prev : Bool),
    okAfter prev (subSepAux prev l) = true := by
  intro l
  induction l with
  | nil => intro prev; rfl
  | cons c cs ih =>
    intro prev
    by_cases hs : sepChar c = true
    · rw [subSepAux, if_pos hs]
      cases prev with
      | true => exact ih true
      | false =>
        simp only [okAfter, if_pos (show sepChar '-' = true by decide)]
        simpa using ih true
    · rw [subSepAux, if_neg hs, okAfter, if_neg hs]
      exact ih false

theorem okAfter_map_toLower : ∀ (l : List Char) (prev : Bool),
    okAfter prev l = true → okAfter prev (l.map Char.toLower) = true := by
  intro l
  induction l with
  | nil => intro prev _; rfl
  | cons c cs ih =>
    intro prev h
    rw [okAfter] at h
    rw [List.map_cons, okAfter]
    by_cases hs : sepChar c = true
    · rw [if_pos hs] at h
      simp only [Bool.and_eq_true, Bool.not_eq_true', decide_eq_true_eq] at h
      obtain ⟨⟨hprev, hc⟩, hok⟩ := h
      rw [sep_toLower_fix hs, if_pos hs]
      simp only [Bool.and_eq_true, Bool.not_eq_true', decide_eq_true_eq]
      exact ⟨⟨hprev, hc⟩, ih true hok⟩
    · rw [if_neg hs] at h
      rw [sepChar_toLower, if_neg hs]
      exact ih false h

theorem okAfter_trimLeft {l : List Char} (h : okAfter false l = true) :
    okAfter false (trimLeft l) = true := by
  induction l with
  | nil => exact h
  | cons c cs ih =>
    by_cases hw : isWS c = true
    · rw [okAfter, if_neg (by rw [ws_not_sep hw]; exact Bool.false_ne_true)] at h
      rw [trimLeft, List.dropWhile_cons, if_pos hw]
      exact ih h
    · rw [trimLeft, List.dropWhile_cons, if_neg hw]
      exact h

theorem okAfter_trimRight : ∀ (l : List Char) (prev : Bool),
    okAfter prev l = true → okAfter prev (trimRight l) = true := by
  intro l
  induction l with
  | nil => intro prev h; exact h
  | cons c cs ih =>
    intro prev h
    rw [okAfter] at h
    rw [trimRight]
    by_cases hs : sepChar c = true
    · rw [if_pos hs] at h
      simp only [Bool.and_eq_true, Bool.not_eq_true', decide_eq_true_eq] at h
      obtain ⟨⟨hprev, hc⟩, hok⟩ := h
      have hok2 := ih true hok
      cases htr : trimRight cs with
      | nil =>
        have hnw : isWS c = false := by
          cases hw : isWS c
          · rfl
          · rw [ws_not_sep hw] at hs; exact absurd hs Bool.false_ne_true
        rw [hnw]
        simp only [Bool.false_eq_true, if_false]
        simp [okAfter, hs, hprev, hc]
      | cons r rs =>
        rw [okAfter, if_pos hs]
        rw [htr] at hok2
        simp only [Bool.and_eq_true, Bool.not_eq_true', decide_eq_true_eq]
        exact ⟨⟨hprev, hc⟩, hok2⟩
    · rw [if_neg hs] at h
      have hok2 := ih false h
      cases htr : trimRight cs with
      | nil =>
        cases hw : isWS c
        · simp only [Bool.false_eq_true, if_false]
          rw [okAfter, if_neg hs]; rfl
        · simp only [if_true]; rfl
      | cons r rs =>
        rw [okAfter, if_neg hs]
        rw [htr] at hok2
        exact hok2

end PipSelect

namespace PipSelect

theorem trimLeft_cons_of_not_ws {c : Char} {l : List Char} (h : isWS c = false) :
    trimLeft (c :: l) = c :: l := by
  rw [trimLeft, List.dropWhile_cons, h]
  simp

theorem trimLeft_shape (l : List Char) :
    trimLeft l = [] ∨ ∃ c t, trimLeft l = c :: t ∧ isWS c = false := by
  induction l with
  | nil => exact Or.inl rfl
  | cons c cs ih =>
    cases hw : isWS c
    · exact Or.inr ⟨c, cs, trimLeft_cons_of_not_ws hw, hw⟩
    · rw [trimLeft, List.dropWhile_cons, hw]
      simpa [trimLeft] using ih

theorem trimRight_cons_shape (c : Char) (cs : List Char) :
    trimRight (c :: cs) = [] ∨ ∃ r, trimRight (c :: cs) = c :: r := by
  rw [trimRight]
  cases htr : trimRight cs with
  | nil =>
    cases hw : isWS c
    · exact Or.inr ⟨[], by simp⟩
    · exact Or.inl (by simp)
  | cons r rs => exact Or.inr ⟨r :: rs, rfl⟩

theorem trimRight_idem : ∀ l : List Char, trimRight (trimRight l) = trimRight l := by
  intro l
  induction l with
  | nil => rfl
  | cons c cs ih =>
    rw [trimRight]
    cases htr : trimRight cs with
    | nil =>
      cases hw : isWS c
      · simp only [Bool.false_eq_true, if_false]
        rw [trimRight, trimRight]
        simp [hw]
      · simp [trimRight]
    | cons r rs =>
      rw [htr] at ih
      rw [trimRight, ih]

theorem trimLeft_of_trim (l : List Char) : trimLeft (trim l) = trim l := by
  rw [trim]
  rcases trimLeft_shape l with h | ⟨c, t, h, hw⟩
  · rw [h]; rfl
  · rw [h]
    rcases trimRight_cons_shape c t with h2 | ⟨r, h2⟩
    · rw [h2]; rfl
    · rw [h2]
      exact trimLeft_cons_of_not_ws hw

theorem trim_of_trim (l : List Char) : trim (trim l) = trim l := by
  rw [trim, trimLeft_of_trim, trim, trimRight_idem]

theorem trimLeft_sublist (l : List Char) : List.Sublist (trimLeft l) l :=
  List.dropWhile_sublist _

theorem trimRight_sublist : ∀ l : List Char, List.Sublist (trimRight l) l := by
  intro l
  induction l with
  | nil => exact List.Sublist.refl []
  | cons c cs ih =>
    rw [trimRight]
    cases htr : trimRight cs with
    | nil =>
      cases hw : isWS c
      · simp only [Bool.false_eq_true, if_false]
        exact List.Sublist.cons₂ c (List.nil_sublist cs)
      · simp only [if_true]
        exact List.nil_sublist _
    | cons r rs =>
      rw [htr] at ih
      exact ih.cons₂ c

theorem mem_trim {c : Char} {l : List Char} (h : c ∈ trim l) : c ∈ l := by
  rw [trim] at h
  exact (trimLeft_sublist l).subset ((trimRight_sublist (trimLeft l)).subset h)

theorem map_toLower_of_normName (s : List Char) :
    (normName s).map Char.toLower = normName s := by
  have hfix : ∀ c ∈ normName s, Char.toLower c = c := by
    intro c hc
    have hc2 : c ∈ (subSep s).map Char.toLower := mem_trim hc
    rcases List.mem_map.mp hc2 with ⟨d, _, rfl⟩
    exact toLower_toLower d
  calc (normName s).map Char.toLower = (normName s).map id := List.map_congr_left hfix
    _ = normName s := List.map_id _

theorem subSep_of_normName (s : List Char) : subSep (normName s) = normName s := by
  apply subSepAux_of_okAfter
  have h1 : okAfter false (subSep s) = true := okAfter_subSepAux s false
  have h2 := okAfter_map_toLower _ _ h1
  have h3 := okAfter_trimLeft h2
  exact okAfter_trimRight _ _ h3

theorem normName_idem (s : List Char) : normName (normName s) = normName s := by
  conv_lhs => rw [normName, subSep_of_normName, map_toLower_of_normName]
  exact trim_of_trim _

end PipSelect

namespace PipSelect

/-- Two raw names differ only by choice of separator character: at every
position either the characters are equal or both are drawn from the class
of `-`, `_` and `.`. -/
def sepEquivB : List Char → List Char → Bool
  | [], [] => true
  | _ :: _, [] => false
  | [], _ :: _ => false
  | a :: as, b :: bs => (a = b || (sepChar a && sepChar b)) && sepEquivB as bs

theorem subSepAux_congr : ∀ (s t : List Char), sepEquivB s t = true →
    ∀ prev : Bool, subSepAux prev s = subSepAux prev t := by
  intro s
  induction s with
  | nil =>
    intro t h prev
    cases t with
    | nil => rfl
    | cons b bs => exact absurd h (by rw [sepEquivB]; exact Bool.false_ne_true)
  | cons a as ih =>
    intro t h prev
    cases t with
    | nil => exact absurd h (by rw [sepEquivB]; exact Bool.false_ne_true)
    | cons b bs =>
      rw [sepEquivB] at h
      simp only [Bool.and_eq_true, Bool.or_eq_true, decide_eq_true_eq] at h
      obtain ⟨hab, hrest⟩ := h
      have hrec := ih bs (by simpa using hrest)
      rcases hab with rfl | ⟨ha, hb⟩
      · rw [subSepAux, subSepAux]
        by_cases hs : sepChar a = true
        · rw [if_pos hs, if_pos hs, hrec true]
        · rw [if_neg hs, if_neg hs, hrec false]
      · rw [subSepAux, subSepAux, if_pos ha, if_pos hb, hrec true]

theorem normName_congr_sepEquiv {s t : List Char} (h : sepEquivB s t = true) :
    normName s = normName t := by
  rw [normName, normName, subSep, subSep, subSepAux_congr s t h false]

theorem subSep_of_no_sep {s : List Char} (h : ∀ c ∈ s, sepChar c = false) :
    subSep s = s := by
  rw [subSep]
  induction s with
  | nil => rfl
  | cons c cs ih =>
    rw [subSepAux, if_neg (by rw [h c (by simp)]; exact Bool.false_ne_true)]
    rw [ih (fun d hd => h d (List.mem_cons_of_mem c hd))]

end PipSelect

namespace PipSelect

/-- A parsed JSON value as produced by `json.loads`.  Numbers are restricted
to integers, which covers every payload the program receives. -/
inductive JValue where
  | jnull : JValue
  | jbool : Bool → JValue
  | jnum : Int → JValue
  | jstr : List Char → JValue
  | jarr : List JValue → JValue
  | jobj : List (List Char × JValue) → JValue

/-- `dict.get(key)`: on duplicate keys `json.loads` keeps the last value. -/
def dictGet (fs : List (List Char × JValue)) (k : List Char) : Option JValue :=
  fs.foldl (fun acc f => if f.1 = k then some f.2 else acc) none

/-- Python truthiness of a JSON value: `None`, `False`, `0`, and empty
strings/containers are falsy. -/
def truthy : JValue → Bool
  | .jnull => false
  | .jbool b => b
  | .jnum n => !(n = 0)
  | .jstr s => !s.isEmpty
  | .jarr xs => !xs.isEmpty
  | .jobj fs => !fs.isEmpty

/-- The single quote character, used by `repr` of a string. -/
def quoteChar : Char := Char.ofNat 39

/-- Comma-separated joining used inside container renderings. -/
def joinComma : List (List Char) → List Char
  | [] => []
  | [x] => x
  | x :: xs => x ++ chars ", " ++ joinComma xs

mutual

/-- Python `repr` of a parsed JSON value, the rendering `str` applies to the
elements of containers (string escaping inside container renderings is not
modelled). -/
def pyRepr : JValue → List Char
  | .jnull => chars "None"
  | .jbool true => chars "True"
  | .jbool false => chars "False"
  | .jnum n => (toString n).data
  | .jstr s => quoteChar :: (s ++ [quoteChar])
  | .jarr xs => Char.ofNat 91 :: (joinComma (pyReprArr xs) ++ [Char.ofNat 93])
  | .jobj fs => Char.ofNat 123 :: (joinComma (pyReprObj fs) ++ [Char.ofNat 125])

/-- Renderings of the elements of a list. -/
def pyReprArr : List JValue → List (List Char)
  | [] => []
  | v :: vs => pyRepr v :: pyReprArr vs

/-- Renderings of the key-value pairs of a dict. -/
def pyReprObj : List (List Char × JValue) → List (List Char)
  | [] => []
  | f :: fs =>
    (quoteChar :: (f.1 ++ [quoteChar]) ++ chars ": " ++ pyRepr f.2) :: pyReprObj fs

end

/-- Python `str()` of a parsed JSON value: a string renders as itself,
anything else as its `repr`. -/
def pyStr : JValue → List Char
  | .jstr s => s
  | v => pyRepr v

end PipSelect

namespace PipSelect

/-- `UpgradeCandidate(name, current, latest, dist_type="")`. -/
structure UpgradeCandidate where
  name : List Char
  current : List Char
  latest : List Char
  dist_type : List Char := []
deriving DecidableEq

/-- The raw stdout of the query command, as seen by
`parse_pip_list_outdated_json`: `blank` when `output.strip()` is empty,
`invalid` when `json.loads` raises `JSONDecodeError`, and `value v` when it
parses to `v`. -/
inductive JInput where
  | blank : JInput
  | invalid : JInput
  | value : JValue → JInput

/-- The loop body over one JSON array item: non-dict items are skipped, a
dict yields a candidate exactly when `item.get` of all of `"name"`,
`"version"` and `"latest_version"` is truthy (`if name and current and
latest`), the fields converted by `str()`. -/
def itemCandidate : JValue → Option UpgradeCandidate
  | .jobj fs =>
    match dictGet fs (chars "name"), dictGet fs (chars "version"),
        dictGet fs (chars "latest_version") with
    | some n, some c, some l =>
      if truthy n && truthy c && truthy l then
        some { name := pyStr n, current := pyStr c, latest := pyStr l, dist_type := [] }
      else none
    | some _, some _, none => none
    | some _, none, _ => none
    | none, _, _ => none
  | _ => none

/-- The `for item in data` accumulation loop. -/
def parseItems : List JValue → List UpgradeCandidate
  | [] => []
  | i :: rest =>
    match itemCandidate i with
    | some c => c :: parseItems rest
    | none => parseItems rest

/-- `parse_pip_list_outdated_json(output)`: empty output and undecodable
JSON give `[]`, a decoded top-level value that is not a list gives `[]`,
and a list is folded through the item loop. -/
def parse_pip_list_outdated_json : JInput → List UpgradeCandidate
  | .blank => []
  | .invalid => []
  | .value (.jarr items) => parseItems items
  | .value _ => []

theorem parseItems_eq_filterMap (items : List JValue) :
    parseItems items = items.filterMap itemCandidate := by
  induction items with
  | nil => rfl
  | cons i rest ih =>
    rw [parseItems, List.filterMap_cons]
    cases itemCandidate i <;> simp [ih]

end PipSelect

namespace PipSelect

/-- Python string comparison: lexicographic on code points. -/
def leStr : List Char → List Char → Bool
  | [], _ => true
  | _ :: _, [] => false
  | a :: as, b :: bs =>
    if a.toNat < b.toNat then true
    else if b.toNat < a.toNat then false
    else leStr as bs

/-- The sort key comparison of `cands.sort(key=lambda c: norm_name(c.name))`. -/
def candLe (a b : UpgradeCandidate) : Bool :=
  leStr (normName a.name) (normName b.name)

/-- Insertion into a list sorted by `candLe`. -/
def insertSorted (a : UpgradeCandidate) : List UpgradeCandidate → List UpgradeCandidate
  | [] => [a]
  | b :: bs => if candLe a b then a :: b :: bs else b :: insertSorted a bs

/-- `cands.sort(key=lambda c: norm_name(c.name))`, modelled by insertion
sort; only the sortedness and permutation behaviour of the library sort is
relied on. -/
def sortCands : List UpgradeCandidate → List UpgradeCandidate
  | [] => []
  | a :: as => insertSorted a (sortCands as)

/-- `[c for c in all_cands if norm_name(c.name) in pip_names]`. -/
def filterCands (pipNames : List (List Char)) (all : List UpgradeCandidate) :
    List UpgradeCandidate :=
  all.filter fun c => decide (normName c.name ∈ pipNames)

theorem leStr_total : ∀ a b : List Char, leStr a b = true ∨ leStr b a = true := by
  intro a
  induction a with
  | nil => intro b; exact Or.inl rfl
  | cons x xs ih =>
    intro b
    cases b with
    | nil => exact Or.inr rfl
    | cons y ys =>
      rcases Nat.lt_trichotomy x.toNat y.toNat with h | h | h
      · left; rw [leStr, if_pos h]
      · rcases ih ys with h2 | h2
        · left; rw [leStr, if_neg (by omega), if_neg (by omega)]; exact h2
        · right; rw [leStr, if_neg (by omega), if_neg (by omega)]; exact h2
      · right; rw [leStr, if_pos h]

theorem leStr_trans : ∀ a b c : List Char,
    leStr a b = true → leStr b c = true → leStr a c = true := by
  intro a
  induction a with
  | nil => intro b c _ _; rfl
  | cons x xs ih =>
    intro b c hab hbc
    cases b with
    | nil => exact absurd hab (by rw [leStr]; exact Bool.false_ne_true)
    | cons y ys =>
      cases c with
      | nil => exact absurd hbc (by rw [leStr]; exact Bool.false_ne_true)
      | cons z zs =>
        rw [leStr] at hab hbc ⊢
        by_cases h1 : x.toNat < y.toNat
        · by_cases h2 : y.toNat < z.toNat
          · rw [if_pos (by omega)]
          · rw [if_pos h1] at hab
            rw [if_neg h2] at hbc
            by_cases h3 : z.toNat < y.toNat
            · rw [if_pos h3] at hbc
              exact absurd hbc Bool.false_ne_true
            · rw [if_pos (by omega)]
        · rw [if_neg h1] at hab
          by_cases h1b : y.toNat < x.toNat
          · rw [if_pos h1b] at hab
            exact absurd hab Bool.false_ne_true
          · rw [if_neg h1b] at hab
            by_cases h2 : y.toNat < z.toNat
            · rw [if_pos (by omega)]
            · rw [if_neg h2] at hbc
              by_cases h3 : z.toNat < y.toNat
              · rw [if_pos h3] at hbc
                exact absurd hbc Bool.false_ne_true
              · rw [if_neg h3] at hbc
                rw [if_neg (by omega), if_neg (by omega)]
                exact ih ys zs hab hbc

theorem candLe_trans {a b c : UpgradeCandidate}
    (h1 : candLe a b = true) (h2 : candLe b c = true) : candLe a c = true :=
  leStr_trans _ _ _ h1 h2

theorem candLe_total (a b : UpgradeCandidate) : candLe a b = true ∨ candLe b a = true :=
  leStr_total _ _

theorem insertSorted_perm (a : UpgradeCandidate) (l : List UpgradeCandidate) :
    (insertSorted a l).Perm (a :: l) := by
  induction l with
  | nil => exact List.Perm.refl _
  | cons b bs ih =>
    rw [insertSorted]
    split
    · exact List.Perm.refl _
    · exact (List.Perm.cons b ih).trans (List.Perm.swap a b bs)

theorem sortCands_perm (l : List UpgradeCandidate) : (sortCands l).Perm l := by
  induction l with
  | nil => exact List.Perm.refl _
  | cons a as ih =>
    exact (insertSorted_perm a (sortCands as)).trans (List.Perm.cons a ih)

theorem insertSorted_pairwise {a : UpgradeCandidate} {l : List UpgradeCandidate}
    (h : l.Pairwise fun x y => candLe x y = true) :
    (insertSorted a l).Pairwise fun x y => candLe x y = true := by
  induction l with
  | nil => simp [insertSorted]
  | cons b bs ih =>
    rw [insertSorted]
    rw [List.pairwise_cons] at h
    obtain ⟨hb, hbs⟩ := h
    split
    · rename_i hab
      rw [List.pairwise_cons]
      refine ⟨?_, List.pairwise_cons.mpr ⟨hb, hbs⟩⟩
      intro x hx
      rcases List.mem_cons.mp hx with rfl | hx
      · exact hab
      · exact candLe_trans hab (hb x hx)
    · rename_i hab
      rw [List.pairwise_cons]
      constructor
      · intro x hx
        have hmem := (insertSorted_perm a bs).mem_iff.mp hx
        rcases List.mem_cons.mp hmem with rfl | hx2
        · rcases candLe_total b x with h2 | h2
          · exact h2
          · exact absurd h2 (by simpa using hab)
        · exact hb x hx2
      · exact ih hbs

theorem sortCands_pairwise (l : List UpgradeCandidate) :
    (sortCands l).Pairwise fun x y => candLe x y = true := by
  induction l with
  | nil => exact List.Pairwise.nil
  | cons a as ih => exact insertSorted_pairwise ih

end PipSelect

namespace PipSelect

/-- `clamp(n, lo, hi) = max(lo, min(hi, n))`. -/
def clamp (n lo hi : Int) : Int := max lo (min hi n)

/-- The mutable state of `curses_select`: the per-row selection flags, the
cursor index `pos` and the viewport offset `top`. -/
structure MenuState where
  selected : List Bool
  pos : Int
  top : Int
deriving DecidableEq

/-- Initial state: `selected = [False] * len(cands)`, `pos = 0`, `top = 0`. -/
def menuInit (n : Int) : MenuState :=
  { selected := List.replicate n.toNat false, pos := 0, top := 0 }

/-- The keep-`pos`-visible block run at the top of every frame of the event
loop (clamp `pos`, pull `top` up or down, clamp `top`). -/
def renderFix (n bH : Int) (s : MenuState) : MenuState :=
  let pos := clamp s.pos 0 (n - 1)
  let top := if pos < s.top then pos else s.top
  let top := if pos ≥ top + bH then pos - bH + 1 else top
  let top := clamp top 0 (max 0 (n - bH))
  { s with pos := pos, top := top }

/-- The navigation and selection keys of the menu (each standing for the
key group the source accepts for it). -/
inductive NavKey where
  | up : NavKey
  | down : NavKey
  | pgUp : NavKey
  | pgDn : NavKey
  | home : NavKey
  | kEnd : NavKey
  | toggle : NavKey
  | selAll : NavKey
  | selNone : NavKey
deriving DecidableEq

/-- The key dispatch of the event loop for the non-terminating keys. -/
def handleNav (n bH : Int) (s : MenuState) : NavKey → MenuState
  | .up => { s with pos := clamp (s.pos - 1) 0 (n - 1) }
  | .down => { s with pos := clamp (s.pos + 1) 0 (n - 1) }
  | .pgUp => { s with pos := max 0 (s.pos - bH) }
  | .pgDn => { s with pos := min (n - 1) (s.pos + bH) }
  | .home => { s with pos := 0 }
  | .kEnd => { s with pos := n - 1 }
  | .toggle =>
    { s with selected := s.selected.set s.pos.toNat (!(s.selected.getD s.pos.toNat false)) }
  | .selAll => { s with selected := List.replicate n.toNat true }
  | .selNone => { s with selected := List.replicate n.toNat false }

/-- One iteration of the event loop on a non-terminating key: the frame is
redrawn (with `body_h = max(1, h - 2)` for the current screen height `h`)
and then the key is handled. -/
def menuStep (n : Int) (s : MenuState) (ev : Int × NavKey) : MenuState :=
  let bH := max 1 (ev.1 - 2)
  handleNav n bH (renderFix n bH s) ev.2

/-- The event loop state after a sequence of (screen height, key) events. -/
def menuRun (n : Int) (s : MenuState) (evs : List (Int × NavKey)) : MenuState :=
  evs.foldl (menuStep n) s

/-- A keypress of the full menu: a navigation key, the quit key, or the
confirm key. -/
inductive MKey where
  | nav : NavKey → MKey
  | quit : MKey
  | confirm : MKey

/-- `[cands[i] for i, ok in enumerate(selected) if ok]`. -/
def chosenItems (cands : List UpgradeCandidate) (selected : List Bool) :
    List UpgradeCandidate :=
  (cands.zip selected).filterMap fun p => if p.2 then some p.1 else none

/-- The `curses_select` event loop on a script of keypresses: `some none`
is the quit/cancel outcome, `some (some l)` the confirmed selection `l`,
and `none` means the script ran out without a terminating key (the real
loop would still be blocked waiting). -/
def cursesLoop (cands : List UpgradeCandidate) :
    MenuState → List (Int × MKey) → Option (Option (List UpgradeCandidate))
  | _, [] => none
  | s, (h, k) :: rest =>
    let n : Int := cands.length
    let bH := max 1 (h - 2)
    let s1 := renderFix n bH s
    match k with
    | .quit => some none
    | .confirm => some (some (chosenItems cands s1.selected))
    | .nav nk => cursesLoop cands (handleNav n bH s1 nk) rest

/-- `curses_select(cands)` driven by a keypress script. -/
def curses_select (cands : List UpgradeCandidate) (evs : List (Int × MKey)) :
    Option (Option (List UpgradeCandidate)) :=
  cursesLoop cands (menuInit cands.length) evs

end PipSelect

namespace PipSelect

/-- Splitting on whitespace runs, as Python `str.split()` with no
argument (after the source has replaced each `','` by `' '`). -/
def splitWsAux : List Char → List Char → List (List Char)
  | [], cur => if cur.isEmpty then [] else [cur.reverse]
  | c :: cs, cur =>
    if isWS c then
      if cur.isEmpty then splitWsAux cs []
      else cur.reverse :: splitWsAux cs []
    else splitWsAux cs (c :: cur)

/-- `s.replace(",", " ").split()`. -/
def splitTokens (s : List Char) : List (List Char) :=
  splitWsAux (s.map fun c => if c = ',' then ' ' else c) []

/-- `tok.isdigit()` (ASCII digits). -/
def isDigitTok (t : List Char) : Bool := !t.isEmpty && t.all Char.isDigit

/-- Numeric value of a digit token. -/
def tokToNat (t : List Char) : Nat := t.foldl (fun n c => n * 10 + (c.toNat - 48)) 0

/-- Insertion into a sorted duplicate-free list of indices: the model of
Python's `sorted(picks)` over a `set`. -/
def insertPick (i : Nat) : List Nat → List Nat
  | [] => [i]
  | j :: js =>
    if i < j then i :: j :: js
    else if i = j then j :: js
    else j :: insertPick i js

/-- The sorted set of indices collected from the digit tokens. -/
def picksOf (toks : List (List Char)) : List Nat :=
  toks.foldl (fun s t => if isDigitTok t then insertPick (tokToNat t) s else s) []

/-- `fallback_select(cands)` on one input line: a blank line cancels,
otherwise the 1-based in-range picks are mapped back to candidates in
sorted order. -/
def fallback_select (cands : List UpgradeCandidate) (line : List Char) :
    Option (List UpgradeCandidate) :=
  if trim line = [] then none
  else some ((picksOf (splitTokens (trim line))).filterMap fun i =>
    if 1 ≤ i ∧ i ≤ cands.length then cands.get? (i - 1) else none)

/-- `upgrade_selected(chosen, ...)` with the interactive confirmation answer
and the install command's exit status made explicit.  Returns the function's
return value paired with whether the install command was executed. -/
def upgrade_selected (chosen : List UpgradeCandidate) (dryRun : Bool)
    (confirm : Bool) (installRc : Int) : Int × Bool :=
  if chosen = [] then (0, false)
  else if dryRun then (0, false)
  else if confirm then (installRc, true)
  else (2, false)

/-- `msg = (err or "").strip(); if msg: print(msg)`: the error text surfaced
to the user, when any. -/
def errSurface (err : List Char) : Option (List Char) :=
  if trim err = [] then none else some (trim err)

/-- The interactive input of one run: a keypress script for the curses menu
or one input line for the text fallback. -/
inductive UIInput where
  | cursesUI : List (Int × MKey) → UIInput
  | fallbackUI : List Char → UIInput

/-- Dispatch between `curses_select` and `fallback_select`
(`if not args.no_curses and is_tty()`). -/
def uiRun (ui : UIInput) (cands : List UpgradeCandidate) :
    Option (Option (List UpgradeCandidate)) :=
  match ui with
  | .cursesUI evs => curses_select cands evs
  | .fallbackUI line => some (fallback_select cands line)

/-- The filtered, sorted candidate list built in `main` and handed to the
selection menu. -/
def mainCands (pipNames : List (List Char)) (allCands : List UpgradeCandidate) :
    List UpgradeCandidate :=
  sortCands (filterCands pipNames allCands)

/-- The observable outcome of one run of `main` (from the classification on):
process exit code, whether the selection menu was entered, whether the
install command was executed, and the query error text printed, if any. -/
structure MainRes where
  code : Int
  menuEntered : Bool
  installRan : Bool
  errPrinted : Option (List Char)
deriving DecidableEq

/-- `main` from the classification call to the end, with the outside world
made explicit: the conda environment and registry inputs, the query
command's exit status / parsed stdout / stderr, the interactive input, the
confirmation answer, the dry-run flag, and the install command's exit
status.  `none` means the menu never terminated.  A nonzero query status
raises `SystemExit(rc)` before the menu; an empty candidate list returns 0;
a cancelled menu returns 2. -/
def mainModel (condaRoot : Option (List Char)) (manifests : List (Option (List Char)))
    (dists : List InstalledDist) (qrc : Int) (qout : JInput) (qerr : List Char)
    (ui : UIInput) (confirm dryRun : Bool) (installRc : Int) : Option MainRes :=
  let r := pip_installed_set_excluding_conda condaRoot manifests dists
  if qrc ≠ 0 then
    some { code := qrc, menuEntered := false, installRan := false,
           errPrinted := errSurface qerr }
  else
    let cands := mainCands r.1 (parse_pip_list_outdated_json qout)
    if cands = [] then
      some { code := 0, menuEntered := false, installRan := false, errPrinted := none }
    else
      match uiRun ui cands with
      | none => none
      | some none =>
        some { code := 2, menuEntered := true, installRan := false, errPrinted := none }
      | some (some chosen) =>
        let u := upgrade_selected chosen dryRun confirm installRc
        some { code := u.1, menuEntered := true, installRan := u.2, errPrinted := none }

end PipSelect

namespace PipSelect

/-- The complete result of the external query call `(rc, out, err)` that
`run_pip` computes on the background thread. -/
structure PipOutcome where
  rc : Int
  out : JInput
  err : List Char

/-- The shared state of the query phase of `get_upgrade_candidates_from_pip`:
the worker's program counter over its four atomic actions (the three
`result_container` stores and `stop_event.set()`), the event flag, the three
result slots, and the primary thread's phase (0 = progress-bar polling loop,
1 = joining, 2 = past the join, reading the result). -/
structure QState where
  wpc : Nat
  signal : Bool
  rcSlot : Option Int
  outSlot : Option JInput
  errSlot : Option (List Char)
  mph : Nat

/-- Start of the query phase: nothing stored, flag clear, primary thread in
the polling loop. -/
def qInit : QState :=
  { wpc := 0, signal := false, rcSlot := none, outSlot := none,
    errSlot := none, mph := 0 }

/-- One atomic step of the background thread `run_pip`: store `rc`, store
`out`, store `err`, then `stop_event.set()`; afterwards the thread is done. -/
def wStep (r : PipOutcome) (s : QState) : QState :=
  match s.wpc with
  | 0 => { s with rcSlot := some r.rc, wpc := 1 }
  | 1 => { s with outSlot := some r.out, wpc := 2 }
  | 2 => { s with errSlot := some r.err, wpc := 3 }
  | 3 => { s with signal := true, wpc := 4 }
  | _ => s

/-- One atomic step of the primary thread: in phase 0 it polls
`stop_event.is_set()` inside `_show_progress_bar` (redrawing the time-based
bar has no effect on the state) and leaves the loop only when the flag is
set; in phase 1 `pip_thread.join()` completes only once the worker has run
all its steps; phase 2 is past the join. -/
def mStep (s : QState) : QState :=
  match s.mph with
  | 0 => if s.signal then { s with mph := 1 } else s
  | 1 => if s.wpc = 4 then { s with mph := 2 } else s
  | _ => s

/-- An interleaved execution: each schedule entry runs one atomic step of
the worker (`true`) or of the primary thread (`false`). -/
def qRun (r : PipOutcome) (sched : List Bool) (s : QState) : QState :=
  sched.foldl (fun s w => if w then wStep r s else mStep s) s

/-- `result_container.get('rc', 1)`, `.get('out', '')`, `.get('err', '')`:
the values the primary thread reads after the join. -/
def readResult (s : QState) : Int × JInput × List Char :=
  (s.rcSlot.getD 1, s.outSlot.getD JInput.blank, s.errSlot.getD [])

/-- Invariant of the query phase: slots written up to the worker's program
counter, the flag only set after all three stores, and the primary thread's
phase only advanced past observation of the flag and a completed join. -/
def qInv (r : PipOutcome) (s : QState) : Prop :=
  (1 ≤ s.wpc → s.rcSlot = some r.rc) ∧
  (2 ≤ s.wpc → s.outSlot = some r.out) ∧
  (3 ≤ s.wpc → s.errSlot = some r.err) ∧
  (s.signal = true → s.wpc = 4) ∧
  s.wpc ≤ 4 ∧
  (1 ≤ s.mph → s.signal = true) ∧
  (2 ≤ s.mph → s.wpc = 4)

theorem qInv_init (r : PipOutcome) : qInv r qInit := by
  refine ⟨?_, ?_, ?_, ?_, ?_, ?_, ?_⟩ <;> simp [qInit]

theorem qInv_wStep {r : PipOutcome} {s : QState} (h : qInv r s) : qInv r (wStep r s) := by
  obtain ⟨h1, h2, h3, h4, h5, h6, h7⟩ := h
  unfold wStep
  match hw : s.wpc with
  | 0 =>
    refine ⟨fun _ => rfl, ?_, ?_, ?_, ?_, ?_, ?_⟩ <;> simp_all
  | 1 =>
    refine ⟨?_, fun _ => rfl, ?_, ?_, ?_, ?_, ?_⟩ <;> simp_all
  | 2 =>
    refine ⟨?_, ?_, fun _ => rfl, ?_, ?_, ?_, ?_⟩ <;> simp_all
  | 3 =>
    refine ⟨?_, ?_, ?_, fun _ => rfl, ?_, ?_, ?_⟩ <;> simp_all
  | n + 4 =>
    exact ⟨h1, h2, h3, h4, h5, h6, h7⟩

theorem qInv_mStep {r : PipOutcome} {s : QState} (h : qInv r s) : qInv r (mStep s) := by
  obtain ⟨h1, h2, h3, h4, h5, h6, h7⟩ := h
  unfold mStep
  match hm : s.mph with
  | 0 =>
    by_cases hs : s.signal = true
    · rw [if_pos hs]
      exact ⟨h1, h2, h3, h4, h5, fun _ => hs, by simp⟩
    · rw [if_neg hs]
      exact ⟨h1, h2, h3, h4, h5, h6, h7⟩
  | 1 =>
    by_cases hw : s.wpc = 4
    · rw [if_pos hw]
      exact ⟨h1, h2, h3, h4, h5, fun _ => h6 (by omega), fun _ => hw⟩
    · rw [if_neg hw]
      exact ⟨h1, h2, h3, h4, h5, h6, h7⟩
  | n + 2 =>
    exact ⟨h1, h2, h3, h4, h5, h6, h7⟩

theorem qInv_run (r : PipOutcome) (sched : List Bool) {s : QState} (h : qInv r s) :
    qInv r (qRun r sched s) := by
  induction sched generalizing s with
  | nil => exact h
  | cons w ws ih =>
    rw [qRun, List.foldl_cons]
    cases w
    · exact ih (qInv_mStep h)
    · exact ih (qInv_wStep h)

end PipSelect

namespace PipSelect

theorem distEligible_true_iff {cp : Bool} {cn : List (List Char)} {d : InstalledDist} :
    distEligible cp cn d = true ↔
      ¬d.installer = condaStr ∧ ¬(cp = true ∧ normName d.name ∈ cn) := by
  cases cp <;> simp [distEligible]

theorem not_distEligible (cp : Bool) (cn : List (List Char)) (d : InstalledDist) :
    (!(distEligible cp cn d)) =
      (decide (d.installer = condaStr) || (cp && decide (normName d.name ∈ cn))) := by
  simp [distEligible]

theorem pipSet_mem (condaRoot : Option (List Char)) (manifests : List (Option (List Char)))
    (dists : List InstalledDist) (n : List Char) :
    n ∈ (pip_installed_set_excluding_conda condaRoot manifests dists).1 ↔
      ∃ d ∈ dists, distEligible condaRoot.isSome (condaNamesOf condaRoot manifests) d = true ∧
        normName d.name = n := by
  unfold pip_installed_set_excluding_conda
  rw [pipLoop_mem]
  simp

theorem pipSet_excluded_count (condaRoot : Option (List Char))
    (manifests : List (Option (List Char))) (dists : List InstalledDist) :
    (pip_installed_set_excluding_conda condaRoot manifests dists).2.2.1 =
      (dists.filter fun d =>
        !(distEligible condaRoot.isSome (condaNamesOf condaRoot manifests) d)).length := by
  show (pipLoop condaRoot.isSome (condaNamesOf condaRoot manifests) ([], 0) dists).2 = _
  rw [pipLoop_count]
  simp

end PipSelect

namespace PipSelect

/-- C1: for every installed unit the classifier applies the per-unit policy
in priority order — a `"conda"` provenance marker excludes the unit; else a
detected secondary environment together with membership of the normalized
name in the conda-meta manifest names excludes it; else the unit is
eligible, whatever the marker says.  With no secondary environment detected,
no unit is ever excluded via the manifest-membership path. -/
theorem claim_C1_classifier_policy (condaRoot : Option (List Char))
    (manifests : List (Option (List Char))) (dists : List InstalledDist) :
    (∀ n, n ∈ (pip_installed_set_excluding_conda condaRoot manifests dists).1 ↔
      ∃ d ∈ dists, ¬d.installer = condaStr ∧
        ¬(condaRoot.isSome = true ∧ normName d.name ∈ condaNamesOf condaRoot manifests) ∧
        normName d.name = n) ∧
    ((pip_installed_set_excluding_conda condaRoot manifests dists).2.2.1 =
      (dists.filter fun d => decide (d.installer = condaStr) ||
        (condaRoot.isSome && decide (normName d.name ∈ condaNamesOf condaRoot manifests))).length) ∧
    (condaRoot = none →
      ((pip_installed_set_excluding_conda condaRoot manifests dists).2.2.1 =
        (dists.filter fun d => decide (d.installer = condaStr)).length ∧
       ∀ n, n ∈ (pip_installed_set_excluding_conda condaRoot manifests dists).1 ↔
        ∃ d ∈ dists, ¬d.installer = condaStr ∧ normName d.name = n)) := by
  refine ⟨?_, ?_, ?_⟩
  · intro n
    rw [pipSet_mem]
    constructor
    · rintro ⟨d, hd, hel, rfl⟩
      obtain ⟨h1, h2⟩ := distEligible_true_iff.mp hel
      exact ⟨d, hd, h1, h2, rfl⟩
    · rintro ⟨d, hd, h1, h2, rfl⟩
      exact ⟨d, hd, distEligible_true_iff.mpr ⟨h1, h2⟩, rfl⟩
  · rw [pipSet_excluded_count]
    congr 1
    apply List.filter_congr
    intro d _
    exact not_distEligible _ _ d
  · rintro rfl
    constructor
    · rw [pipSet_excluded_count]
      congr 1
      apply List.filter_congr
      intro d _
      rw [not_distEligible]
      simp
    · intro n
      rw [pipSet_mem]
      constructor
      · rintro ⟨d, hd, hel, rfl⟩
        exact ⟨d, hd, (distEligible_true_iff.mp hel).1, rfl⟩
      · rintro ⟨d, hd, h1, rfl⟩
        exact ⟨d, hd, distEligible_true_iff.mpr ⟨h1, by simp⟩, rfl⟩

/-- Witness for C1 at a concrete registry: one conda-marked unit, no
secondary environment detected. -/
theorem claim_C1_classifier_policy_witness :
    (pip_installed_set_excluding_conda none []
        [{ name := chars "numpy", version := chars "1", installer := condaStr }]).2.2.1 =
      (([{ name := chars "numpy", version := chars "1", installer := condaStr }] :
          List InstalledDist).filter fun d => decide (d.installer = condaStr)).length :=
  ((claim_C1_classifier_policy none []
    [{ name := chars "numpy", version := chars "1", installer := condaStr }]).2.2 rfl).1

/-- Counterexample to C2 as stated: two distinct eligible units whose names
normalize identically contribute only one to the returned `count_pip`, not
two — the count is the size of the name set, not the number of eligible
units. -/
theorem claim_C2_counterexample :
    (pip_installed_set_excluding_conda none []
      [{ name := chars "Foo_Bar", version := chars "1", installer := [] },
       { name := chars "foo.bar", version := chars "1", installer := [] }]).2.1 = 1 ∧
    (([{ name := chars "Foo_Bar", version := chars "1", installer := [] },
       { name := chars "foo.bar", version := chars "1", installer := [] }] :
         List InstalledDist).filter fun d => distEligible false [] d).length = 2 := by
  constructor
  · decide
  · decide

/-- C2 amended: `countEligible` equals the number of distinct normalized
names among the eligible units (two units normalizing identically
contribute one), and `countExcluded` equals the number of units excluded by
either exclusion rule. -/
theorem claim_C2_amended_counts (condaRoot : Option (List Char))
    (manifests : List (Option (List Char))) (dists : List InstalledDist) :
    (pip_installed_set_excluding_conda condaRoot manifests dists).2.1 =
      ((dists.filter fun d =>
          distEligible condaRoot.isSome (condaNamesOf condaRoot manifests) d).map
        fun d => normName d.name).toFinset.card ∧
    (pip_installed_set_excluding_conda condaRoot manifests dists).2.2.1 =
      (dists.filter fun d =>
        !(distEligible condaRoot.isSome (condaNamesOf condaRoot manifests) d)).length := by
  constructor
  · have hnd : (pip_installed_set_excluding_conda condaRoot manifests dists).1.Nodup := by
      show (pipLoop condaRoot.isSome (condaNamesOf condaRoot manifests) ([], 0) dists).1.Nodup
      exact pipLoop_nodup _ _ (by simp)
    have hcard := List.toFinset_card_of_nodup hnd
    have hset : (pip_installed_set_excluding_conda condaRoot manifests dists).1.toFinset =
        ((dists.filter fun d =>
            distEligible condaRoot.isSome (condaNamesOf condaRoot manifests) d).map
          fun d => normName d.name).toFinset := by
      apply Finset.ext
      intro n
      simp only [List.mem_toFinset, List.mem_map, List.mem_filter]
      rw [pipSet_mem]
      constructor
      · rintro ⟨d, hd, hel, rfl⟩
        exact ⟨d, ⟨hd, hel⟩, rfl⟩
      · rintro ⟨d, ⟨hd, hel⟩, rfl⟩
        exact ⟨d, hd, hel, rfl⟩
    show (pip_installed_set_excluding_conda condaRoot manifests dists).1.length = _
    rw [← hcard, hset]
  · exact pipSet_excluded_count condaRoot manifests dists

/-- C3: normalization replaces every maximal run of `-`, `_`, `.` with a
single `-`, lowercases, and trims; names differing only by separator choice
normalize identically, the three spec examples all give `foo-bar`, and
separator-free names pass through unchanged aside from casing and edge
trimming. -/
theorem claim_C3_normalization :
    (∀ s t : List Char, sepEquivB s t = true → normName s = normName t) ∧
    normName (chars "Foo_Bar") = chars "foo-bar" ∧
    normName (chars "foo.bar") = chars "foo-bar" ∧
    normName (chars "FOO-BAR") = chars "foo-bar" ∧
    (∀ s : List Char, (∀ c ∈ s, sepChar c = false) →
      normName s = trim (s.map Char.toLower)) := by
  refine ⟨fun s t h => normName_congr_sepEquiv h, by decide, by decide, by decide, ?_⟩
  intro s h
  rw [normName, subSep_of_no_sep h]

/-- Witness for C3: a concrete separator-equivalent pair and a concrete
separator-free name. -/
theorem claim_C3_normalization_witness :
    (sepEquivB (chars "Foo_Bar") (chars "Foo.Bar") = true ∧
     normName (chars "Foo_Bar") = normName (chars "Foo.Bar")) ∧
    ((∀ c ∈ chars "NumPy", sepChar c = false) ∧
     normName (chars "NumPy") = trim ((chars "NumPy").map Char.toLower)) :=
  ⟨⟨by decide, claim_C3_normalization.1 _ _ (by decide)⟩,
   ⟨by decide, claim_C3_normalization.2.2.2.2 _ (by decide)⟩⟩

/-- C10: name normalization is idempotent — every output of `normName` is a
fixed point, so re-normalizing during membership tests never changes a
name. -/
theorem claim_C10_normalization_idempotent :
    ∀ s : List Char, normName (normName s) = normName s :=
  normName_idem

end PipSelect

namespace PipSelect

/-- C4: the candidate list handed to the selection menu consists of exactly
the upgrade candidates whose normalized name is in the eligible set
(a permutation of the filter), sorted by normalized name, and never shows a
candidate outside the eligible set. -/
theorem claim_C4_menu_list (pipNames : List (List Char)) (allCands : List UpgradeCandidate) :
    (mainCands pipNames allCands).Perm
      (allCands.filter fun c => decide (normName c.name ∈ pipNames)) ∧
    (mainCands pipNames allCands).Pairwise
      (fun a b => leStr (normName a.name) (normName b.name) = true) ∧
    (∀ c ∈ mainCands pipNames allCands, normName c.name ∈ pipNames) := by
  refine ⟨sortCands_perm _, ?_, ?_⟩
  · exact sortCands_pairwise (filterCands pipNames allCands)
  · intro c hc
    have hmem : c ∈ filterCands pipNames allCands := (sortCands_perm _).subset hc
    have h2 := List.mem_filter.mp hmem
    simpa using h2.2

/-- Witness for C4 at a concrete eligible set and candidate list. -/
theorem claim_C4_menu_list_witness :
    normName (chars "requests") ∈ [chars "requests"] :=
  (claim_C4_menu_list [chars "requests"]
      [{ name := chars "requests", current := chars "1", latest := chars "2" }]).2.2
    { name := chars "requests", current := chars "1", latest := chars "2" }
    (by decide)

/-- C5: a nonzero exit status of the query command terminates the run with
that same status, the stripped stderr text (when nonempty) is printed, the
selection menu is never entered and no install invocation occurs. -/
theorem claim_C5_query_failure (condaRoot : Option (List Char))
    (manifests : List (Option (List Char))) (dists : List InstalledDist)
    (qrc : Int) (qout : JInput) (qerr : List Char) (ui : UIInput)
    (confirm dryRun : Bool) (installRc : Int) (h : qrc ≠ 0) :
    mainModel condaRoot manifests dists qrc qout qerr ui confirm dryRun installRc =
      some { code := qrc, menuEntered := false, installRan := false,
             errPrinted := errSurface qerr } ∧
    (trim qerr ≠ [] → errSurface qerr = some (trim qerr)) := by
  constructor
  · simp only [mainModel]
    rw [if_pos h]
  · intro hne
    rw [errSurface, if_neg hne]

/-- Witness for C5: the scenario of a query failing with status 3 and stderr
`"network error"`. -/
theorem claim_C5_query_failure_witness :
    mainModel none [] [] 3 JInput.blank (chars " network error ")
        (UIInput.fallbackUI []) false false 0 =
      some { code := 3, menuEntered := false, installRan := false,
             errPrinted := errSurface (chars " network error ") } ∧
    (trim (chars " network error ") ≠ [] →
      errSurface (chars " network error ") = some (trim (chars " network error "))) :=
  claim_C5_query_failure none [] [] 3 JInput.blank (chars " network error ")
    (UIInput.fallbackUI []) false false 0 (by decide)

/-- Counterexample to C6 as stated: a record carrying all three fields, with
`"name"` present but equal to the empty string, is dropped rather than
yielding a candidate. -/
theorem claim_C6_counterexample :
    (dictGet [(chars "name", JValue.jstr []), (chars "version", JValue.jstr (chars "1")),
        (chars "latest_version", JValue.jstr (chars "2"))] (chars "name")).isSome = true ∧
    (dictGet [(chars "name", JValue.jstr []), (chars "version", JValue.jstr (chars "1")),
        (chars "latest_version", JValue.jstr (chars "2"))] (chars "version")).isSome = true ∧
    (dictGet [(chars "name", JValue.jstr []), (chars "version", JValue.jstr (chars "1")),
        (chars "latest_version", JValue.jstr (chars "2"))]
      (chars "latest_version")).isSome = true ∧
    parse_pip_list_outdated_json (JInput.value (JValue.jarr
      [JValue.jobj [(chars "name", JValue.jstr []), (chars "version", JValue.jstr (chars "1")),
        (chars "latest_version", JValue.jstr (chars "2"))]])) = [] :=
  ⟨rfl, rfl, rfl, rfl⟩

/-- C6 amended: parsing never raises — blank output, undecodable JSON and a
non-list payload give the empty list; non-dict items are dropped; a dict
item is dropped unless all three fields are present *and truthy* (so a
present-but-empty value is also dropped); every dict item with three truthy
fields yields one candidate, and the candidates appear in input order. -/
theorem claim_C6_parse_tolerant :
    parse_pip_list_outdated_json JInput.blank = [] ∧
    parse_pip_list_outdated_json JInput.invalid = [] ∧
    (∀ v : JValue, (∀ items, v ≠ JValue.jarr items) →
      parse_pip_list_outdated_json (JInput.value v) = []) ∧
    (∀ items, parse_pip_list_outdated_json (JInput.value (JValue.jarr items)) =
      items.filterMap itemCandidate) ∧
    (∀ v : JValue, (∀ fs, v ≠ JValue.jobj fs) → itemCandidate v = none) ∧
    (∀ fs, ¬((dictGet fs (chars "name")).elim false truthy = true ∧
             (dictGet fs (chars "version")).elim false truthy = true ∧
             (dictGet fs (chars "latest_version")).elim false truthy = true) →
      itemCandidate (JValue.jobj fs) = none) ∧
    (∀ fs n c l, dictGet fs (chars "name") = some n →
      dictGet fs (chars "version") = some c →
      dictGet fs (chars "latest_version") = some l →
      truthy n = true → truthy c = true → truthy l = true →
      itemCandidate (JValue.jobj fs) =
        some { name := pyStr n, current := pyStr c, latest := pyStr l, dist_type := [] }) := by
  refine ⟨rfl, rfl, ?_, ?_, ?_, ?_, ?_⟩
  · intro v hv
    cases v with
    | jarr items => exact absurd rfl (hv items)
    | jnull => rfl
    | jbool b => rfl
    | jnum n => rfl
    | jstr s => rfl
    | jobj fs => rfl
  · intro items
    exact parseItems_eq_filterMap items
  · intro v hv
    cases v with
    | jobj fs => exact absurd rfl (hv fs)
    | jnull => rfl
    | jbool b => rfl
    | jnum n => rfl
    | jstr s => rfl
    | jarr xs => rfl
  · intro fs h
    cases hn : dictGet fs (chars "name") with
    | none => simp only [itemCandidate, hn]
    | some n =>
      cases hc : dictGet fs (chars "version") with
      | none => simp only [itemCandidate, hn, hc]
      | some c =>
        cases hl : dictGet fs (chars "latest_version") with
        | none => simp only [itemCandidate, hn, hc, hl]
        | some l =>
          simp only [itemCandidate, hn, hc, hl]
          rw [if_neg]
          intro heq
          rw [hn, hc, hl] at h
          simp only [Option.elim, Bool.and_eq_true] at heq h
          exact h ⟨heq.1.1, heq.1.2, heq.2⟩
  · intro fs n c l hn hc hl tn tc tl
    simp only [itemCandidate, hn, hc, hl]
    rw [if_pos (by rw [tn, tc, tl]; rfl)]

/-- Witness for C6 at concrete payloads: a non-list payload and a complete
truthy record. -/
theorem claim_C6_parse_tolerant_witness :
    parse_pip_list_outdated_json (JInput.value JValue.jnull) = [] ∧
    itemCandidate (JValue.jobj [(chars "name", JValue.jstr (chars "requests")),
        (chars "version", JValue.jstr (chars "1.0")),
        (chars "latest_version", JValue.jstr (chars "2.0"))]) =
      some { name := pyStr (JValue.jstr (chars "requests")),
             current := pyStr (JValue.jstr (chars "1.0")),
             latest := pyStr (JValue.jstr (chars "2.0")), dist_type := [] } :=
  ⟨claim_C6_parse_tolerant.2.2.1 JValue.jnull (fun _ h => JValue.noConfusion h),
   claim_C6_parse_tolerant.2.2.2.2.2.2 _ _ _ _ rfl rfl rfl rfl rfl rfl⟩

end PipSelect

namespace PipSelect

theorem renderFix_pos_bounds (n bH : Int) (hn : 1 ≤ n) (s : MenuState) :
    0 ≤ (renderFix n bH s).pos ∧ (renderFix n bH s).pos ≤ n - 1 := by
  simp only [renderFix, clamp]
  omega

theorem renderFix_visible {n bH : Int} (hn : 1 ≤ n) (hb : 1 ≤ bH) (s : MenuState) :
    (renderFix n bH s).top ≤ (renderFix n bH s).pos ∧
    (renderFix n bH s).pos ≤ (renderFix n bH s).top + bH - 1 := by
  simp only [renderFix, clamp]
  split_ifs <;> omega

theorem menuStep_pos_bounds {n : Int} (hn : 1 ≤ n) (s : MenuState) (ev : Int × NavKey) :
    0 ≤ (menuStep n s ev).pos ∧ (menuStep n s ev).pos ≤ n - 1 := by
  obtain ⟨h, k⟩ := ev
  have hr := renderFix_pos_bounds n (max 1 (h - 2)) hn s
  cases k <;> simp only [menuStep, handleNav, clamp] <;> omega

theorem menuRun_pos_bounds {n : Int} (hn : 1 ≤ n) (evs : List (Int × NavKey))
    (s : MenuState) (hs : 0 ≤ s.pos ∧ s.pos ≤ n - 1) :
    0 ≤ (menuRun n s evs).pos ∧ (menuRun n s evs).pos ≤ n - 1 := by
  induction evs generalizing s with
  | nil => exact hs
  | cons e es ih =>
    rw [menuRun, List.foldl_cons]
    exact ih (menuStep n s e) (menuStep_pos_bounds hn s e)

end PipSelect

namespace PipSelect

/-- Counterexample to C7 as stated: after End then Up on a 10-row list with
body height 2, the rendered frame has `pos = 8` and `top = 8`, yet the
strictly smaller offset 7 also keeps the cursor visible — the code leaves
`top` unchanged while the cursor is visible instead of recomputing the
minimal offset. -/
theorem claim_C7_counterexample :
    (renderFix 10 (max 1 (4 - 2)) (menuRun 10 (menuInit 10)
      [(4, NavKey.kEnd), (4, NavKey.up)])).pos = 8 ∧
    (renderFix 10 (max 1 (4 - 2)) (menuRun 10 (menuInit 10)
      [(4, NavKey.kEnd), (4, NavKey.up)])).top = 8 ∧
    (0 ≤ (7 : Int) ∧
     (7 : Int) ≤ (renderFix 10 (max 1 (4 - 2)) (menuRun 10 (menuInit 10)
        [(4, NavKey.kEnd), (4, NavKey.up)])).pos ∧
     (renderFix 10 (max 1 (4 - 2)) (menuRun 10 (menuInit 10)
        [(4, NavKey.kEnd), (4, NavKey.up)])).pos ≤ 7 + (max 1 (4 - 2)) - 1) ∧
    (7 : Int) < (renderFix 10 (max 1 (4 - 2)) (menuRun 10 (menuInit 10)
      [(4, NavKey.kEnd), (4, NavKey.up)])).top := by
  refine ⟨by decide, by decide, ⟨by decide, by decide, by decide⟩, by decide⟩

/-- C7 amended: for a non-empty candidate list, after any sequence of
keypress events the cursor lies in `[0, N-1]`, and at every rendered frame
the viewport offset satisfies `top ≤ pos ≤ top + bodyHeight - 1`, so the
cursor row is always on screen; `top` is however only adjusted when the
cursor would leave the window, not recomputed as the minimal such value. -/
theorem claim_C7_amended_menu_invariant (n : Int) (hn : 1 ≤ n)
    (evs : List (Int × NavKey)) (h : Int) :
    (0 ≤ (menuRun n (menuInit n) evs).pos ∧ (menuRun n (menuInit n) evs).pos ≤ n - 1) ∧
    (0 ≤ (renderFix n (max 1 (h - 2)) (menuRun n (menuInit n) evs)).pos ∧
     (renderFix n (max 1 (h - 2)) (menuRun n (menuInit n) evs)).pos ≤ n - 1) ∧
    ((renderFix n (max 1 (h - 2)) (menuRun n (menuInit n) evs)).top ≤
      (renderFix n (max 1 (h - 2)) (menuRun n (menuInit n) evs)).pos ∧
     (renderFix n (max 1 (h - 2)) (menuRun n (menuInit n) evs)).pos ≤
      (renderFix n (max 1 (h - 2)) (menuRun n (menuInit n) evs)).top + (max 1 (h - 2)) - 1) := by
  refine ⟨?_, ?_, ?_⟩
  · exact menuRun_pos_bounds hn evs (menuInit n) (by simp [menuInit]; omega)
  · exact renderFix_pos_bounds n (max 1 (h - 2)) hn _
  · exact renderFix_visible hn (by omega) _

/-- Witness for C7 at a concrete list length, event script and screen
height. -/
theorem claim_C7_amended_menu_invariant_witness :
    (0 ≤ (menuRun 3 (menuInit 3) [(24, NavKey.down)]).pos ∧
     (menuRun 3 (menuInit 3) [(24, NavKey.down)]).pos ≤ 3 - 1) ∧
    (0 ≤ (renderFix 3 (max 1 (24 - 2)) (menuRun 3 (menuInit 3) [(24, NavKey.down)])).pos ∧
     (renderFix 3 (max 1 (24 - 2)) (menuRun 3 (menuInit 3) [(24, NavKey.down)])).pos ≤ 3 - 1) ∧
    ((renderFix 3 (max 1 (24 - 2)) (menuRun 3 (menuInit 3) [(24, NavKey.down)])).top ≤
      (renderFix 3 (max 1 (24 - 2)) (menuRun 3 (menuInit 3) [(24, NavKey.down)])).pos ∧
     (renderFix 3 (max 1 (24 - 2)) (menuRun 3 (menuInit 3) [(24, NavKey.down)])).pos ≤
      (renderFix 3 (max 1 (24 - 2)) (menuRun 3 (menuInit 3) [(24, NavKey.down)])).top +
        (max 1 (24 - 2)) - 1) :=
  claim_C7_amended_menu_invariant 3 (by decide) [(24, NavKey.down)] 24

/-- C8: every user-cancellation path yields exit code 2 with no install
executed — the quit key in the curses menu, a blank response to the fallback
prompt, and declining the final confirmation. -/
theorem claim_C8_cancellation_exit2 :
    (∀ (cands : List UpgradeCandidate) (s : MenuState) (h : Int)
        (rest : List (Int × MKey)),
      cursesLoop cands s ((h, MKey.quit) :: rest) = some none) ∧
    (∀ (cands : List UpgradeCandidate) (line : List Char), trim line = [] →
      fallback_select cands line = none) ∧
    (∀ condaRoot manifests dists qout qerr ui confirm dryRun installRc,
      ¬mainCands (pip_installed_set_excluding_conda condaRoot manifests dists).1
        (parse_pip_list_outdated_json qout) = [] →
      uiRun ui (mainCands (pip_installed_set_excluding_conda condaRoot manifests dists).1
        (parse_pip_list_outdated_json qout)) = some none →
      mainModel condaRoot manifests dists 0 qout qerr ui confirm dryRun installRc =
        some { code := 2, menuEntered := true, installRan := false, errPrinted := none }) ∧
    (∀ (chosen : List UpgradeCandidate) (installRc : Int), ¬chosen = [] →
      upgrade_selected chosen false false installRc = (2, false)) ∧
    (∀ condaRoot manifests dists qout qerr ui chosen installRc,
      ¬mainCands (pip_installed_set_excluding_conda condaRoot manifests dists).1
        (parse_pip_list_outdated_json qout) = [] →
      uiRun ui (mainCands (pip_installed_set_excluding_conda condaRoot manifests dists).1
        (parse_pip_list_outdated_json qout)) = some (some chosen) →
      ¬chosen = [] →
      mainModel condaRoot manifests dists 0 qout qerr ui false false installRc =
        some { code := 2, menuEntered := true, installRan := false, errPrinted := none }) := by
  refine ⟨?_, ?_, ?_, ?_, ?_⟩
  · intro cands s h rest
    rfl
  · intro cands line hb
    rw [fallback_select, if_pos hb]
  · intro condaRoot manifests dists qout qerr ui confirm dryRun installRc hne huir
    simp only [mainModel]
    rw [if_neg (by simp), if_neg hne, huir]
  · intro chosen installRc hne
    rw [upgrade_selected, if_neg hne]
    rfl
  · intro condaRoot manifests dists qout qerr ui chosen installRc hne huir hch
    simp only [mainModel]
    rw [if_neg (by simp), if_neg hne, huir]
    simp only [upgrade_selected]
    rw [if_neg hch]
    rfl

end PipSelect

namespace PipSelect

/-- Witness for C8: quit pressed on an empty menu state, a blank fallback
line, a concrete one-candidate run cancelled by the quit key, a declined
confirmation, and the same run declined at the final prompt. -/
theorem claim_C8_cancellation_exit2_witness :
    cursesLoop [] (menuInit 0) [(24, MKey.quit)] = some none ∧
    fallback_select [] (chars "   ") = none ∧
    mainModel none [] [⟨chars "requests", chars "1", chars "pip"⟩] 0
      (JInput.value (JValue.jarr [JValue.jobj
        [(chars "name", JValue.jstr (chars "requests")),
         (chars "version", JValue.jstr (chars "1.0")),
         (chars "latest_version", JValue.jstr (chars "2.0"))]])) []
      (UIInput.cursesUI [(24, MKey.quit)]) true false 0 =
      some { code := 2, menuEntered := true, installRan := false, errPrinted := none } ∧
    upgrade_selected [⟨chars "requests", chars "1.0", chars "2.0", []⟩]
      false false 5 = (2, false) ∧
    mainModel none [] [⟨chars "requests", chars "1", chars "pip"⟩] 0
      (JInput.value (JValue.jarr [JValue.jobj
        [(chars "name", JValue.jstr (chars "requests")),
         (chars "version", JValue.jstr (chars "1.0")),
         (chars "latest_version", JValue.jstr (chars "2.0"))]])) []
      (UIInput.fallbackUI (chars "1")) false false 5 =
      some { code := 2, menuEntered := true, installRan := false, errPrinted := none } :=
  ⟨claim_C8_cancellation_exit2.1 [] (menuInit 0) 24 [],
   claim_C8_cancellation_exit2.2.1 [] (chars "   ") (by decide),
   claim_C8_cancellation_exit2.2.2.1 none [] _ _ [] _ true false 0
     (by decide) (by decide),
   claim_C8_cancellation_exit2.2.2.2.1 _ 5 (by decide),
   claim_C8_cancellation_exit2.2.2.2.2 none [] _ _ [] _
     [⟨chars "requests", chars "1.0", chars "2.0", []⟩] 5
     (by decide) (by decide) (by decide)⟩

/-- C9: in every interleaving of the query phase, the background worker has
stored the complete result before the completion flag is observable, the
primary thread reaches its reads only past the flag and the join, and the
values it then reads are exactly the worker's result; the progress-bar loop
is left only upon the flag, never on the time estimate. -/
theorem claim_C9_query_handoff (r : PipOutcome) (sched : List Bool) :
    ((qRun r sched qInit).signal = true →
      (qRun r sched qInit).rcSlot = some r.rc ∧
      (qRun r sched qInit).outSlot = some r.out ∧
      (qRun r sched qInit).errSlot = some r.err) ∧
    (2 ≤ (qRun r sched qInit).mph →
      readResult (qRun r sched qInit) = (r.rc, r.out, r.err)) ∧
    (1 ≤ (qRun r sched qInit).mph → (qRun r sched qInit).signal = true) := by
  have hinv := qInv_run r sched (qInv_init r)
  obtain ⟨h1, h2, h3, h4, h5, h6, h7⟩ := hinv
  refine ⟨?_, ?_, h6⟩
  · intro hs
    have hw := h4 hs
    exact ⟨h1 (by omega), h2 (by omega), h3 (by omega)⟩
  · intro hm
    have hw := h7 hm
    rw [readResult, h1 (by omega), h2 (by omega), h3 (by omega)]
    rfl

/-- Witness for C9: the schedule that runs the worker to completion and then
lets the primary thread observe the flag and join. -/
theorem claim_C9_query_handoff_witness :
    readResult (qRun { rc := 7, out := JInput.blank, err := chars "e" }
        [true, true, true, true, false, false] qInit) =
      (7, JInput.blank, chars "e") :=
  (claim_C9_query_handoff { rc := 7, out := JInput.blank, err := chars "e" }
    [true, true, true, true, false, false]).2.1 (by decide)

end PipSelect
